import Mathlib

/-!
Verification of the file-system primitive layer of the fastbuild repository
(`Code/Core/FileIO/FileIO.cpp`).

The file system visible to the layer is modelled as an inductive tree of
directories and files; paths are lists of name components (one component per
level, i.e. the text between two native slashes).  The platform calls
(`stat`, `mkdir`, `opendir`/`readdir`, `rename`, `CopyFile`, ...) are given
their documented semantics as pure functions on that tree, and each
`FileIO` routine is translated branch by branch from the C++ source.  Where
the Windows and the POSIX (`__LINUX__`/`__APPLE__`) branches of a routine
differ, both are embedded, with a `_windows` or `_posix` suffix.
-/

/-- Metadata the file system stores for a regular file.  `size` is the file
size in bytes; `mtime` is the last-write time as the 64-bit value the
platform reports (a FILETIME on Windows, seconds * 10^9 + nanoseconds on
POSIX); `attr` is the platform metadata word (`dwFileAttributes` on Windows,
the permission bits of `st_mode` on POSIX). -/
structure FileMeta where
  size : Nat
  mtime : Nat
  attr : Nat
deriving Repr, DecidableEq

/-- Model of a file-system subtree: a regular file with its metadata, or a
directory with an ordered list of named entries (the list order models
readdir order).  An entry named "." or ".." models the special links that
directory enumeration also reports. -/
inductive FSTree where
  | file (meta : FileMeta) : FSTree
  | dir (entries : List (String × FSTree)) : FSTree

mutual

/-- Path resolution: follow the components of the path down the tree,
returning the subtree the path denotes (this models a successful `stat` /
`GetFileAttributes`), or `none` when some component is missing or a
non-final component is a file. -/
def FSTree.lookup : FSTree → List String → Option FSTree
  | t, [] => some t
  | .file _, _ :: _ => none
  | .dir es, n :: rest => lookupEntries es n rest

/-- Resolution of one path component among the entries of a directory. -/
def lookupEntries : List (String × FSTree) → String → List String → Option FSTree
  | [], _, _ => none
  | (m, c) :: es, n, rest => if m = n then FSTree.lookup c rest else lookupEntries es n rest

end

/-- Whether some file-system object (file or directory) exists at `p`. -/
def entryExists (fs : FSTree) (p : List String) : Bool :=
  (fs.lookup p).isSome

/-- POSIX `S_IFDIR` file-type bit of `st_mode` (octal 040000). -/
def S_IFDIR : Nat := 0o40000

/-- POSIX `S_IFREG` file-type bit of `st_mode` (octal 100000). -/
def S_IFREG : Nat := 0o100000

/-- Value of the `st_mode` field `stat` reports for a tree node: the
file-type bit combined with the stored permission bits (permission words are
12 bits, so they never overlap the type bits; directories are given a fixed
0o777 permission word, which no routine of the layer ever reads). -/
def FSTree.stMode : FSTree → Nat
  | .file m => S_IFREG ||| (m.attr % 0o10000)
  | .dir _ => S_IFDIR ||| 0o777

/-- Translation of `FileIO::FileExists`, POSIX branch (FileIO.cpp lines
42-51): `stat` must succeed and the `S_IFDIR` bit of `st_mode` must not be
set ("exists and is NOT a folder"). -/
def FileExists_posix (fs : FSTree) (p : List String) : Bool :=
  match fs.lookup p with
  | some t => decide ((t.stMode &&& S_IFDIR) ≠ S_IFDIR)
  | none => false

/-- Translation of `FileIO::FileExists`, Windows branch (FileIO.cpp lines
34-41): true exactly when `GetFileAttributes` succeeds, i.e. when anything
exists at the path ("note this might not be file!"). -/
def FileExists_windows (fs : FSTree) (p : List String) : Bool :=
  (fs.lookup p).isSome

/-- Translation of `FileIO::DirectoryExists` (FileIO.cpp lines 343-365,
both branches agree): the path resolves and denotes a directory. -/
def DirectoryExists (fs : FSTree) (p : List String) : Bool :=
  match fs.lookup p with
  | some (.dir _) => true
  | _ => false

/-- Modelled from the spec: `PathUtils::EnsureTrailingSlash` (PathUtils is a
helper of the layer whose source is not part of this extract); per its name
and its uses in FileIO.cpp it appends a native slash when the path does not
already end in one. -/
def ensureTrailingSlash (p : String) : String :=
  if p.data.getLast? = some '/' then p else p ++ "/"

/-- Translation of the POSIX readdir loop of `FileIO::GetFilesRecurse`
(FileIO.cpp lines 655-698), iterating over the entries of one directory in
readdir order with the path buffer truncated back to `base` (the
`SetLength( baseLength )` calls) before each use: a directory entry named
"." or ".." is skipped, any other directory entry is descended into with
`base ++ name ++ "/"`, and a file entry whose name matches the wildcard
appends `base ++ name` to `results`.  The wildcard test
`PathUtils::IsWildcardMatch` is kept abstract as the predicate `wild`. -/
def getFilesRecurseEntries (wild : String → Bool) :
    List (String × FSTree) → String → List String → List String
  | [], _, results => results
  | (n, .dir es) :: rest, base, results =>
      if n = "." ∨ n = ".." then
        getFilesRecurseEntries wild rest base results
      else
        getFilesRecurseEntries wild rest base
          (getFilesRecurseEntries wild es (base ++ n ++ "/") results)
  | (n, .file _) :: rest, base, results =>
      if wild n then
        getFilesRecurseEntries wild rest base (results ++ [base ++ n])
      else
        getFilesRecurseEntries wild rest base results

/-- Translation of `FileIO::GetFilesRecurse` (FileIO.cpp lines 589-702,
POSIX branch): `opendir` on a non-directory fails and nothing is appended;
on a directory the readdir loop above runs. -/
def getFilesRecurse (wild : String → Bool) (t : FSTree) (base : String)
    (results : List String) : List String :=
  match t with
  | .file _ => results
  | .dir es => getFilesRecurseEntries wild es base results

/-- Translation of the POSIX readdir loop of `FileIO::GetFilesNoRecurse`
(FileIO.cpp lines 749-771): every directory entry is skipped, and a file
entry whose name matches the wildcard appends `base ++ name`. -/
def getFilesNoRecurseEntries (wild : String → Bool) :
    List (String × FSTree) → String → List String → List String
  | [], _, results => results
  | (_, .dir _) :: rest, base, results =>
      getFilesNoRecurseEntries wild rest base results
  | (n, .file _) :: rest, base, results =>
      if wild n then
        getFilesNoRecurseEntries wild rest base (results ++ [base ++ n])
      else
        getFilesNoRecurseEntries wild rest base results

/-- Translation of `FileIO::GetFilesNoRecurse` (FileIO.cpp lines 706-776,
POSIX branch), including its own `EnsureTrailingSlash` on a copy of the
path. -/
def getFilesNoRecurse (wild : String → Bool) (t : FSTree) (path : String)
    (results : List String) : List String :=
  match t with
  | .file _ => results
  | .dir es => getFilesNoRecurseEntries wild es (ensureTrailingSlash path) results

/-- Translation of `FileIO::GetFiles` (FileIO.cpp lines 138-159).  `t` is
the subtree the directory path `path` denotes (the OS resolves the path when
the directory is opened).  The size of `results` is recorded, the recursive
or non-recursive enumeration appends to it, and the returned flag is
`GetSize() != oldSize`. -/
def GetFiles (wild : String → Bool) (recurse : Bool) (t : FSTree)
    (path : String) (results : List String) : Bool × List String :=
  let out :=
    if recurse then getFilesRecurse wild t (ensureTrailingSlash path) results
    else getFilesNoRecurse wild t path results
  (decide (out.length ≠ results.length), out)

/-- Written from the words of the claim about `listDirectory` (not from the
source): the full paths, in readdir order, of the non-directory entries of
the whole tree whose names match the wildcard, where every subdirectory is
descended into regardless of the wildcard, the special "." and ".."
directory entries are skipped, and each path is the directory prefix
followed by the entry name. -/
def claimedFilesRecurse (wild : String → Bool) :
    List (String × FSTree) → String → List String
  | [], _ => []
  | (n, .dir es) :: rest, base =>
      (if n = "." ∨ n = ".." then []
       else claimedFilesRecurse wild es (base ++ n ++ "/"))
        ++ claimedFilesRecurse wild rest base
  | (n, .file _) :: rest, base =>
      (if wild n then [base ++ n] else []) ++ claimedFilesRecurse wild rest base

/-- Written from the words of the claim (not from the source): with
`recurse` false, only the non-directory entries of the given directory
itself whose names match the wildcard, as prefix-plus-name paths. -/
def claimedFilesFlat (wild : String → Bool) :
    List (String × FSTree) → String → List String
  | [], _ => []
  | (_, .dir _) :: rest, base => claimedFilesFlat wild rest base
  | (n, .file _) :: rest, base =>
      (if wild n then [base ++ n] else []) ++ claimedFilesFlat wild rest base

/-- Entries the claim says `GetFiles(path, wildCard, recurse, results)`
appends: matching files of the whole tree (recurse) or of the directory
alone (no recurse), each prefixed with the slash-terminated directory
path. -/
def claimedFiles (wild : String → Bool) (recurse : Bool) (t : FSTree)
    (path : String) : List String :=
  match t with
  | .file _ => []
  | .dir es =>
      if recurse then claimedFilesRecurse wild es (ensureTrailingSlash path)
      else claimedFilesFlat wild es (ensureTrailingSlash path)

/-- Result record filled by the `Ex` enumeration routines, translation of
`FileIO::FileInfo` (m_Name, m_Attributes, m_LastWriteTime, m_Size). -/
structure FileInfo where
  name : String
  attributes : Nat
  lastWriteTime : Nat
  size : Nat
deriving Repr, DecidableEq

/-- Record appended by the POSIX `Ex` loops for a matching file: the full
path, and the `st_mode`, last-write time and size that `stat` reports
(FileIO.cpp lines 901-914 / 1002-1015; the capacity-doubling
`SetCapacity`/`SetSize`/`Top` sequence of the Array container amounts to
appending one element). -/
def mkFileInfo (base n : String) (m : FileMeta) : FileInfo :=
  { name := base ++ n
    attributes := FSTree.stMode (.file m)
    lastWriteTime := m.mtime
    size := m.size }

/-- Translation of the POSIX readdir loop of `FileIO::GetFilesRecurseEx`
(FileIO.cpp lines 856-917): same traversal as `GetFilesRecurse`, appending
`FileInfo` records instead of plain paths. -/
def getFilesRecurseExEntries (wild : String → Bool) :
    List (String × FSTree) → String → List FileInfo → List FileInfo
  | [], _, results => results
  | (n, .dir es) :: rest, base, results =>
      if n = "." ∨ n = ".." then
        getFilesRecurseExEntries wild rest base results
      else
        getFilesRecurseExEntries wild rest base
          (getFilesRecurseExEntries wild es (base ++ n ++ "/") results)
  | (n, .file m) :: rest, base, results =>
      if wild n then
        getFilesRecurseExEntries wild rest base (results ++ [mkFileInfo base n m])
      else
        getFilesRecurseExEntries wild rest base results

/-- Translation of `FileIO::GetFilesRecurseEx` (FileIO.cpp lines 781-921,
POSIX branch). -/
def getFilesRecurseEx (wild : String → Bool) (t : FSTree) (base : String)
    (results : List FileInfo) : List FileInfo :=
  match t with
  | .file _ => results
  | .dir es => getFilesRecurseExEntries wild es base results

/-- Translation of the POSIX readdir loop of `FileIO::GetFilesNoRecurseEx`
(FileIO.cpp lines 971-1018): directories skipped, matching files appended as
`FileInfo` records. -/
def getFilesNoRecurseExEntries (wild : String → Bool) :
    List (String × FSTree) → String → List FileInfo → List FileInfo
  | [], _, results => results
  | (_, .dir _) :: rest, base, results =>
      getFilesNoRecurseExEntries wild rest base results
  | (n, .file m) :: rest, base, results =>
      if wild n then
        getFilesNoRecurseExEntries wild rest base (results ++ [mkFileInfo base n m])
      else
        getFilesNoRecurseExEntries wild rest base results

/-- Translation of `FileIO::GetFilesNoRecurseEx` (FileIO.cpp lines 925-1022,
POSIX branch). -/
def getFilesNoRecurseEx (wild : String → Bool) (t : FSTree) (path : String)
    (results : List FileInfo) : List FileInfo :=
  match t with
  | .file _ => results
  | .dir es => getFilesNoRecurseExEntries wild es (ensureTrailingSlash path) results

/-- Translation of `FileIO::GetFilesEx` (FileIO.cpp lines 163-184): record
the old size, enumerate, return whether the size changed. -/
def GetFilesEx (wild : String → Bool) (recurse : Bool) (t : FSTree)
    (path : String) (results : List FileInfo) : Bool × List FileInfo :=
  let out :=
    if recurse then getFilesRecurseEx wild t (ensureTrailingSlash path) results
    else getFilesNoRecurseEx wild t path results
  (decide (out.length ≠ results.length), out)

/-- Outcome of the platform directory-creation call on a whole tree:
created (with the new tree), failed with "already exists"
(EEXIST / ERROR_ALREADY_EXISTS — raised for ANY existing object at the
path, directory or not), or failed for another reason (missing or
non-directory parent: ENOENT / ENOTDIR). -/
inductive MkdirResult where
  | created (fs : FSTree) : MkdirResult
  | eexist : MkdirResult
  | err : MkdirResult

/-- Outcome of the same call at the level of one directory's entry list. -/
inductive MkdirResultE where
  | created (es : List (String × FSTree)) : MkdirResultE
  | eexist : MkdirResultE
  | err : MkdirResultE

mutual

/-- Model of the platform `mkdir` / `CreateDirectory` primitive on the
tree: creating the root reports "already exists"; descending through a file
fails; otherwise the final component is created in its parent directory. -/
def FSTree.mkdir : FSTree → List String → MkdirResult
  | _, [] => .eexist
  | .file _, _ :: _ => .err
  | .dir es, n :: rest =>
      match mkdirEntries es n rest with
      | .created es' => .created (.dir es')
      | .eexist => .eexist
      | .err => .err

/-- The `mkdir` walk inside one directory's entry list: when the next
component names an existing entry, a one-component path reports "already
exists" (whatever the entry is) and a longer path recurses into the entry;
when it names nothing, a one-component path creates an empty directory and
a longer path fails (missing intermediate). -/
def mkdirEntries : List (String × FSTree) → String → List String → MkdirResultE
  | [], n, [] => .created [(n, .dir [])]
  | [], _, _ :: _ => .err
  | (m, c) :: es, n, rest =>
      if m = n then
        match rest with
        | [] => .eexist
        | r :: rest' =>
            match FSTree.mkdir c (r :: rest') with
            | .created c' => .created ((m, c') :: es)
            | .eexist => .eexist
            | .err => .err
      else
        match mkdirEntries es n rest with
        | .created es' => .created ((m, c) :: es')
        | .eexist => .eexist
        | .err => .err

end

/-- Translation of `FileIO::DirectoryCreate` (FileIO.cpp lines 307-339,
both branches agree): the creation call succeeding, or failing with
"already exists", returns true; any other failure returns false ("failed,
probably missing intermediate folders or an invalid name"). -/
def DirectoryCreate (fs : FSTree) (p : List String) : Bool × FSTree :=
  match fs.mkdir p with
  | .created fs' => (true, fs')
  | .eexist => (true, fs)
  | .err => (false, fs)

/-- Translation of the slash-walking loop of `FileIO::EnsurePathExists`
(FileIO.cpp lines 399-419).  After `PathUtils::FixupFolderPath` the path is
slash-terminated, so truncating at each successive native slash visits
every prefix of the component list from shallowest to deepest (`done` is
the prefix already walked); each level that does not exist as a directory
is created, and a failed creation aborts with false at once. -/
def ensurePathLoop (fs : FSTree) (done : List String) :
    List String → Bool × FSTree
  | [] => (true, fs)
  | c :: rest =>
      let cur := done ++ [c]
      if DirectoryExists fs cur then ensurePathLoop fs cur rest
      else
        match DirectoryCreate fs cur with
        | (true, fs') => ensurePathLoop fs' cur rest
        | (false, fs') => (false, fs')

/-- Translation of `FileIO::EnsurePathExists` (FileIO.cpp lines 368-421):
when the whole path already exists as a directory nothing is done, and
otherwise every level of the path is walked shallowest-first. -/
def EnsurePathExists (fs : FSTree) (p : List String) : Bool × FSTree :=
  if DirectoryExists fs p then (true, fs) else ensurePathLoop fs [] p

mutual

/-- Removal of the object at a path (the unlink step of `rename`): fails
when the path is the root or does not resolve. -/
def FSTree.removeAt : FSTree → List String → Option FSTree
  | _, [] => none
  | .file _, _ :: _ => none
  | .dir es, n :: rest => (removeAtEntries es n rest).map .dir

/-- The removal walk inside one directory's entry list. -/
def removeAtEntries : List (String × FSTree) → String → List String →
    Option (List (String × FSTree))
  | [], _, _ => none
  | (m, c) :: es, n, rest =>
      if m = n then
        match rest with
        | [] => some es
        | r :: rest' => (FSTree.removeAt c (r :: rest')).map fun c' => (m, c') :: es
      else
        (removeAtEntries es n rest).map fun es' => (m, c) :: es'

end

mutual

/-- Placement of an object at a path (the link step of `rename` for a file
source): the parent directories must exist, an existing file at the
destination is replaced in place, an existing directory at the destination
makes the call fail (EISDIR), and a fresh name is appended to its parent's
entry list. -/
def FSTree.setAt : FSTree → List String → FSTree → Option FSTree
  | _, [], _ => none
  | .file _, _ :: _, _ => none
  | .dir es, n :: rest, t => (setAtEntries es n rest t).map .dir

/-- The placement walk inside one directory's entry list. -/
def setAtEntries : List (String × FSTree) → String → List String → FSTree →
    Option (List (String × FSTree))
  | [], n, [], t => some [(n, t)]
  | [], _, _ :: _, _ => none
  | (m, c) :: es, n, rest, t =>
      if m = n then
        match rest with
        | [] =>
            match c with
            | .dir _ => none
            | .file _ => some ((m, t) :: es)
        | r :: rest' => (FSTree.setAt c (r :: rest') t).map fun c' => (m, c') :: es
      else
        (setAtEntries es n rest t).map fun es' => (m, c) :: es'

end

/-- Model of the platform `rename` / `MoveFileEx(..., MOVEFILE_REPLACE_EXISTING)`
primitive for a regular-file source: in one atomic step the source file is
unlinked and placed at the destination, replacing any file already there;
the call fails when the source does not resolve to a file or the
destination cannot be placed. -/
def renameFile (fs : FSTree) (src dst : List String) : Option FSTree :=
  match fs.lookup src with
  | some (.file m) =>
      match fs.removeAt src with
      | some fs' => fs'.setAt dst (.file m)
      | none => none
  | _ => none

/-- Translation of `FileIO::FileMove` (FileIO.cpp lines 125-134): a single
rename call; true exactly when it succeeded, and the file system is the
rename's one-step result (unchanged on failure). -/
def FileMove (fs : FSTree) (src dst : List String) : Bool × FSTree :=
  match renameFile fs src dst with
  | some fs' => (true, fs')
  | none => (false, fs)

/-- Fields of the `WIN32_FILE_ATTRIBUTE_DATA` record that
`GetFileAttributesEx` fills (each DWORD is a 32-bit word). -/
structure Win32FileAttributeData where
  dwFileAttributes : Nat
  ftLastWriteTimeLow : Nat
  ftLastWriteTimeHigh : Nat
  nFileSizeLow : Nat
  nFileSizeHigh : Nat
deriving Repr, DecidableEq

/-- FILE_ATTRIBUTE_DIRECTORY (0x10). -/
def FILE_ATTRIBUTE_DIRECTORY : Nat := 16

/-- Model of `GetFileAttributesEx` on the tree: it succeeds for any
existing object; for a file it reports the stored attribute word and the
64-bit size and last-write time split into their low and high 32-bit words
(for a directory only the directory attribute bit is modelled, since no
routine of the layer reads the other directory fields). -/
def winStat (fs : FSTree) (p : List String) : Option Win32FileAttributeData :=
  match fs.lookup p with
  | some (.file m) =>
      some { dwFileAttributes := m.attr
             ftLastWriteTimeLow := m.mtime % 2 ^ 32
             ftLastWriteTimeHigh := m.mtime / 2 ^ 32 % 2 ^ 32
             nFileSizeLow := m.size % 2 ^ 32
             nFileSizeHigh := m.size / 2 ^ 32 % 2 ^ 32 }
  | some (.dir _) =>
      some { dwFileAttributes := FILE_ATTRIBUTE_DIRECTORY
             ftLastWriteTimeLow := 0
             ftLastWriteTimeHigh := 0
             nFileSizeLow := 0
             nFileSizeHigh := 0 }
  | none => none

/-- Translation of `FileIO::GetFileInfo`, Windows branch (FileIO.cpp lines
188-206): when `GetFileAttributesEx` succeeds, the info record is filled
with the name, the attribute word, and the 64-bit last-write time and size
recombined as `(uint64_t)low | ((uint64_t)high << 32)`; `none` models the
false return when it fails. -/
def GetFileInfo_windows (fs : FSTree) (p : List String) (fileName : String) :
    Option FileInfo :=
  match winStat fs p with
  | some d =>
      some { name := fileName
             attributes := d.dwFileAttributes
             lastWriteTime := d.ftLastWriteTimeLow ||| (d.ftLastWriteTimeHigh <<< 32)
             size := d.nFileSizeLow ||| (d.nFileSizeHigh <<< 32) }
  | none => none

/-- Translation of `FileIO::GetFileInfo`, POSIX branches (FileIO.cpp lines
200-205): unimplemented (`ASSERT( false )` in debug, then `return false`),
so no info is ever produced. -/
def GetFileInfo_posix (fs : FSTree) (p : List String) : Option FileInfo :=
  none

/-- Translation of `FileIO::GetFileLastWriteTime`, Windows branch
(FileIO.cpp lines 462-469): the recombined FILETIME of an existing object,
0 when `GetFileAttributesEx` fails. -/
def GetFileLastWriteTime_windows (fs : FSTree) (p : List String) : Nat :=
  match winStat fs p with
  | some d => d.ftLastWriteTimeLow ||| (d.ftLastWriteTimeHigh <<< 32)
  | none => 0

/-- Translation of `FileIO::FileCopy`, POSIX branches (FileIO.cpp lines
114-117): `return false;` with no file-system action — an unimplemented
stub. -/
def FileCopy_posix (fs : FSTree) (src dst : List String)
    (allowOverwrite : Bool) : Bool × FSTree :=
  (false, fs)

/-- Translation of `FileIO::CreateTempPath`, POSIX branches (FileIO.cpp
lines 449-452): `return false;` with no action and no path produced. -/
def CreateTempPath_posix (fs : FSTree) (tempPrefix : String) :
    Bool × FSTree × Option String :=
  (false, fs, none)

/-- Translation of `FileIO::SetFileLastWriteTime`, POSIX branches
(FileIO.cpp lines 516-519): `return false;` with no action. -/
def SetFileLastWriteTime_posix (fs : FSTree) (p : List String)
    (fileTime : Nat) : Bool × FSTree :=
  (false, fs)

/-- Translation of `FileIO::SetReadOnly`, POSIX branches (FileIO.cpp lines
554-557): `return false;` with no action. -/
def SetReadOnly_posix (fs : FSTree) (p : List String) (readOnly : Bool) :
    Bool × FSTree :=
  (false, fs)

/-- ERROR_ACCESS_DENIED (5). -/
def ERROR_ACCESS_DENIED : Nat := 5

/-- FILE_ATTRIBUTE_READONLY (0x1). -/
def FILE_ATTRIBUTE_READONLY : Nat := 1

/-- Responses of the Windows API during one `FileIO::FileCopy` call:
`copyOk i` is the result of the i-th `CopyFile` call, `lastError` the code
`GetLastError` reports after the first failed copy, `dstAttrs` the result
of `GetFileAttributes` on the destination, and `setAttrsOk` the result of
`SetFileAttributes`. -/
structure CopyEnv where
  copyOk : Nat → Bool
  lastError : Nat
  dstAttrs : Option Nat
  setAttrsOk : Bool

/-- Translation of `FileIO::FileCopy`, Windows branch (FileIO.cpp lines
80-113), returning the result together with the number of `CopyFile` calls
made: a first copy failing with access denied while overwrite is allowed
causes the destination's read-only flag to be cleared and the copy to be
attempted a second time. -/
def FileCopy_windows (env : CopyEnv) (allowOverwrite : Bool) : Bool × Nat :=
  if env.copyOk 0 then (true, 1)
  else if env.lastError = ERROR_ACCESS_DENIED ∧ allowOverwrite then
    match env.dstAttrs with
    | none => (false, 1)
    | some attrs =>
        if attrs &&& FILE_ATTRIBUTE_READONLY = 0 then (false, 1)
        else if env.setAttrsOk then (env.copyOk 1, 2)
        else (false, 1)
  else (false, 1)

/-- Outcome of `FileIO::WorkAroundForWindowsFilePermissionProblem`: the
file opened on the attempt with the given index, or the 1-second timeout
elapsed (the function then asserts in debug builds and returns). -/
inductive WAResult where
  | openedAfter (attempt : Nat) : WAResult
  | timedOut : WAResult
deriving Repr, DecidableEq

/-- Translation of the retry loop of
`FileIO::WorkAroundForWindowsFilePermissionProblem` (FileIO.cpp lines
1039-1052).  `openOk i` is the result of the i-th `FileStream::Open`
attempt; each failed attempt sleeps 1 ms, so after attempt `i` the timer
has run for at least `i + 1` milliseconds, and the loop gives up when the
elapsed time exceeds one second. -/
def workAroundGo (openOk : Nat → Bool) (attempt : Nat) : WAResult :=
  if openOk attempt then .openedAfter attempt
  else if attempt + 1 > 1000 then .timedOut
  else workAroundGo openOk (attempt + 1)
termination_by 1001 - attempt
decreasing_by omega

/-- The workaround loop started at its first open attempt. -/
def workAround (openOk : Nat → Bool) : WAResult :=
  workAroundGo openOk 0

/-- Number of `FileStream::Open` calls a run of the workaround makes. -/
def waAttempts : WAResult → Nat
  | .openedAfter k => k + 1
  | .timedOut => 1001

/-- Accumulator-free form of the recursive `Ex` enumeration, used to state
its append-only behaviour. -/
def collectedFilesRecurseEx (wild : String → Bool) :
    List (String × FSTree) → String → List FileInfo
  | [], _ => []
  | (n, .dir es) :: rest, base =>
      (if n = "." ∨ n = ".." then []
       else collectedFilesRecurseEx wild es (base ++ n ++ "/"))
        ++ collectedFilesRecurseEx wild rest base
  | (n, .file m) :: rest, base =>
      (if wild n then [mkFileInfo base n m] else [])
        ++ collectedFilesRecurseEx wild rest base

/-- Accumulator-free form of the non-recursive `Ex` enumeration. -/
def collectedFilesFlatEx (wild : String → Bool) :
    List (String × FSTree) → String → List FileInfo
  | [], _ => []
  | (_, .dir _) :: rest, base => collectedFilesFlatEx wild rest base
  | (n, .file m) :: rest, base =>
      (if wild n then [mkFileInfo base n m] else [])
        ++ collectedFilesFlatEx wild rest base

/-- Translation of the skip test of the Windows branch of
`FileIO::GetFilesRecurse` (FileIO.cpp lines 613-614):
`cFileName[0] == '.' && ( cFileName[1] == '.' || cFileName[1] == '\\000' )`.
The test never looks at the third character, so it holds not only for "."
and ".." but for ANY name that begins with "..". -/
def winSkipsDir (n : String) : Bool :=
  match n.data with
  | '.' :: '.' :: _ => true
  | ['.'] => true
  | _ => false

/-- Translation of the first (directory) pass of the Windows branch of
`FileIO::GetFilesRecurse` (FileIO.cpp lines 596-626): every directory
entry whose name passes the skip test above is ignored, and each remaining
directory entry is descended into with `base ++ name ++ "/"` by the whole
routine — its own directory pass followed by its file pass, inlined here;
the file pass (lines 628-653: skip directories, append wildcard matches)
is the same loop as the POSIX no-recurse loop and is shared as
`getFilesNoRecurseEntries`.  Non-directory entries are ignored by this
pass (the `FindExSearchLimitToDirectories` hint is advisory, the attribute
check decides). -/
def winDirsPass (wild : String → Bool) :
    List (String × FSTree) → String → List String → List String
  | [], _, results => results
  | (n, .dir es) :: rest, base, results =>
      if winSkipsDir n then winDirsPass wild rest base results
      else winDirsPass wild rest base
        (getFilesNoRecurseEntries wild es (base ++ n ++ "/")
          (winDirsPass wild es (base ++ n ++ "/") results))
  | (_, .file _) :: rest, base, results => winDirsPass wild rest base results

/-- Translation of `FileIO::GetFilesRecurse`, Windows branch (FileIO.cpp
lines 595-653): the directory pass over this directory's entries, then the
file pass appending this directory's matching files. -/
def getFilesRecurseWin (wild : String → Bool) (t : FSTree) (base : String)
    (results : List String) : List String :=
  match t with
  | .file _ => results
  | .dir es => getFilesNoRecurseEntries wild es base (winDirsPass wild es base results)

/-- Translation of `FileIO::GetFiles`, as compiled for Windows: identical
shell to the POSIX build (lines 138-159), calling the Windows recursive
enumeration (the non-recursive loop, lines 714-741, skips directories and
appends matches exactly like the POSIX one and is shared). -/
def GetFiles_windows (wild : String → Bool) (recurse : Bool) (t : FSTree)
    (path : String) (results : List String) : Bool × List String :=
  let out :=
    if recurse then getFilesRecurseWin wild t (ensureTrailingSlash path) results
    else getFilesNoRecurse wild t path results
  (decide (out.length ≠ results.length), out)

/-- Written from the words of the amended claim for the Windows recursion:
the matching non-directory entries of the tree, except that a directory
entry is descended into only when its name does not begin with ".." and is
not "."; a directory's subtree contributions come before its own files. -/
def claimedFilesWinDirs (wild : String → Bool) :
    List (String × FSTree) → String → List String
  | [], _ => []
  | (n, .dir es) :: rest, base =>
      (if winSkipsDir n then []
       else claimedFilesWinDirs wild es (base ++ n ++ "/")
         ++ claimedFilesFlat wild es (base ++ n ++ "/"))
        ++ claimedFilesWinDirs wild rest base
  | (_, .file _) :: rest, base => claimedFilesWinDirs wild rest base

/-- Entries the amended claim says the Windows `GetFiles` appends:
with `recurse`, the subtree contributions under the "begins with .." skip
rule followed by the top directory's own matching files; without
`recurse`, this directory's matching files alone. -/
def claimedFilesWin (wild : String → Bool) (recurse : Bool) (t : FSTree)
    (path : String) : List String :=
  match t with
  | .file _ => []
  | .dir es =>
      if recurse then
        claimedFilesWinDirs wild es (ensureTrailingSlash path)
          ++ claimedFilesFlat wild es (ensureTrailingSlash path)
      else claimedFilesFlat wild es (ensureTrailingSlash path)

theorem getFilesRecurseEntries_eq (wild : String → Bool)
    (es : List (String × FSTree)) (base : String) (results : List String) :
    getFilesRecurseEntries wild es base results =
      results ++ claimedFilesRecurse wild es base := by
  induction es, base, results using getFilesRecurseEntries.induct wild with
  | case1 base results => simp [getFilesRecurseEntries, claimedFilesRecurse]
  | case2 n es rest base results hdot ih =>
      simp [getFilesRecurseEntries, claimedFilesRecurse, hdot, ih]
  | case3 n es rest base results hdot ih1 ih2 =>
      rw [ih1] at ih2
      simp [getFilesRecurseEntries, claimedFilesRecurse, hdot, ih1, ih2]
  | case4 n m rest base results hw ih =>
      simp [getFilesRecurseEntries, claimedFilesRecurse, hw, ih]
  | case5 n m rest base results hw ih =>
      simp [getFilesRecurseEntries, claimedFilesRecurse, hw, ih]

theorem getFilesNoRecurseEntries_eq (wild : String → Bool)
    (es : List (String × FSTree)) (base : String) (results : List String) :
    getFilesNoRecurseEntries wild es base results =
      results ++ claimedFilesFlat wild es base := by
  induction es, base, results using getFilesNoRecurseEntries.induct wild with
  | case1 base results => simp [getFilesNoRecurseEntries, claimedFilesFlat]
  | case2 n es rest base results ih =>
      simp [getFilesNoRecurseEntries, claimedFilesFlat, ih]
  | case3 n m rest base results hw ih =>
      simp [getFilesNoRecurseEntries, claimedFilesFlat, hw, ih]
  | case4 n m rest base results hw ih =>
      simp [getFilesNoRecurseEntries, claimedFilesFlat, hw, ih]

theorem winDirsPass_eq (wild : String → Bool)
    (es : List (String × FSTree)) (base : String) (results : List String) :
    winDirsPass wild es base results =
      results ++ claimedFilesWinDirs wild es base := by
  induction es, base, results using winDirsPass.induct wild with
  | case1 base results => simp [winDirsPass, claimedFilesWinDirs]
  | case2 n es rest base results hskip ih =>
      simp [winDirsPass, claimedFilesWinDirs, hskip, ih]
  | case3 n es rest base results hskip ih1 ih2 =>
      rw [ih1, getFilesNoRecurseEntries_eq] at ih2
      simp only [List.append_assoc] at ih2
      simp [winDirsPass, claimedFilesWinDirs, hskip, ih1, ih2,
        getFilesNoRecurseEntries_eq, List.append_assoc]
  | case4 n m rest base results ih =>
      simp [winDirsPass, claimedFilesWinDirs, ih]

theorem getFilesRecurseExEntries_eq (wild : String → Bool)
    (es : List (String × FSTree)) (base : String) (results : List FileInfo) :
    getFilesRecurseExEntries wild es base results =
      results ++ collectedFilesRecurseEx wild es base := by
  induction es, base, results using getFilesRecurseExEntries.induct wild with
  | case1 base results => simp [getFilesRecurseExEntries, collectedFilesRecurseEx]
  | case2 n es rest base results hdot ih =>
      simp [getFilesRecurseExEntries, collectedFilesRecurseEx, hdot, ih]
  | case3 n es rest base results hdot ih1 ih2 =>
      rw [ih1] at ih2
      simp [getFilesRecurseExEntries, collectedFilesRecurseEx, hdot, ih1, ih2]
  | case4 n m rest base results hw ih =>
      simp [getFilesRecurseExEntries, collectedFilesRecurseEx, hw, ih]
  | case5 n m rest base results hw ih =>
      simp [getFilesRecurseExEntries, collectedFilesRecurseEx, hw, ih]

theorem getFilesNoRecurseExEntries_eq (wild : String → Bool)
    (es : List (String × FSTree)) (base : String) (results : List FileInfo) :
    getFilesNoRecurseExEntries wild es base results =
      results ++ collectedFilesFlatEx wild es base := by
  induction es, base, results using getFilesNoRecurseExEntries.induct wild with
  | case1 base results => simp [getFilesNoRecurseExEntries, collectedFilesFlatEx]
  | case2 n es rest base results ih =>
      simp [getFilesNoRecurseExEntries, collectedFilesFlatEx, ih]
  | case3 n m rest base results hw ih =>
      simp [getFilesNoRecurseExEntries, collectedFilesFlatEx, hw, ih]
  | case4 n m rest base results hw ih =>
      simp [getFilesNoRecurseExEntries, collectedFilesFlatEx, hw, ih]

/-- C1 counterexample: the Windows recursive skip test looks only at the
first two characters of a name, so the directory "..d" — which the claim
says must be descended into, since only "." and ".." are special — is
skipped entirely: with a match-everything wildcard the Windows enumeration
appends nothing, although the claim-described result ("p/..d/f") is
nonempty. -/
theorem claim_C1_counterexample :
    GetFiles_windows (fun _ => true) true
      (.dir [("..d", .dir [("f", .file ⟨0, 0, 0⟩)])]) "p" [] = (false, []) ∧
    claimedFiles (fun _ => true) true
      (.dir [("..d", .dir [("f", .file ⟨0, 0, 0⟩)])]) "p" = ["p/..d/f"] := by
  constructor
  · simp [GetFiles_windows, getFilesRecurseWin, winDirsPass, winSkipsDir,
      getFilesNoRecurseEntries, ensureTrailingSlash]
  · simp [claimedFiles, claimedFilesRecurse, ensureTrailingSlash]

/-- C1 (amended): `GetFiles` appends to `results` exactly the
non-directory entries whose names match the wildcard — from the directory
alone when `recurse` is false, from the tree when `recurse` is true —
each appended entry being the directory prefix followed by the entry name;
on POSIX every subdirectory is descended into regardless of the wildcard
with exactly the special "." and ".." entries skipped, while on Windows
the skip test checks only the first two characters, so a directory is
descended into only when its name is not "." and does not begin with ".."
(`claimedFiles` and `claimedFilesWin` are written from the claim's words,
the `GetFiles` sides from the source). -/
theorem claim_C1_getFiles_amended (wild : String → Bool)
    (recurse : Bool) (t : FSTree) (path : String) (results : List String) :
    GetFiles wild recurse t path results =
      (decide (claimedFiles wild recurse t path ≠ []),
       results ++ claimedFiles wild recurse t path) ∧
    GetFiles_windows wild recurse t path results =
      (decide (claimedFilesWin wild recurse t path ≠ []),
       results ++ claimedFilesWin wild recurse t path) := by
  have hlen : ∀ (xs ys : List String),
      decide ((xs ++ ys).length ≠ xs.length) = decide (ys ≠ []) := by
    intro xs ys
    simp only [decide_eq_decide, List.length_append]
    constructor
    · intro h hnil
      simp [hnil] at h
    · intro h heq
      exact h (List.eq_nil_of_length_eq_zero (by omega))
  constructor
  · have hout :
        (if recurse then getFilesRecurse wild t (ensureTrailingSlash path) results
         else getFilesNoRecurse wild t path results) =
          results ++ claimedFiles wild recurse t path := by
      cases recurse with
      | false =>
          cases t with
          | file m => simp [getFilesNoRecurse, claimedFiles]
          | dir es => simp [getFilesNoRecurse, claimedFiles, getFilesNoRecurseEntries_eq]
      | true =>
          cases t with
          | file m => simp [getFilesRecurse, claimedFiles]
          | dir es => simp [getFilesRecurse, claimedFiles, getFilesRecurseEntries_eq]
    unfold GetFiles
    rw [hout]
    dsimp only
    rw [hlen]
  · have hout :
        (if recurse then getFilesRecurseWin wild t (ensureTrailingSlash path) results
         else getFilesNoRecurse wild t path results) =
          results ++ claimedFilesWin wild recurse t path := by
      cases recurse with
      | false =>
          cases t with
          | file m => simp [getFilesNoRecurse, claimedFilesWin]
          | dir es => simp [getFilesNoRecurse, claimedFilesWin, getFilesNoRecurseEntries_eq]
      | true =>
          cases t with
          | file m => simp [getFilesRecurseWin, claimedFilesWin]
          | dir es =>
              simp [getFilesRecurseWin, claimedFilesWin, winDirsPass_eq,
                getFilesNoRecurseEntries_eq]
    unfold GetFiles_windows
    rw [hout]
    dsimp only
    rw [hlen]

/-- C10: `GetFiles` and `GetFilesEx` never clear, remove or modify entries
already present in the results array — the output is the input with new
entries appended — and each returns true exactly when at least one new
entry was appended (the array's size strictly increased). -/
theorem claim_C10_getFiles_append_only (wild : String → Bool)
    (recurse : Bool) (t : FSTree) (path : String)
    (results : List String) (resultsEx : List FileInfo) :
    (∃ new, GetFiles wild recurse t path results =
      (decide (new ≠ []), results ++ new)) ∧
    (∃ newEx, GetFilesEx wild recurse t path resultsEx =
      (decide (newEx ≠ []), resultsEx ++ newEx)) := by
  have hlen : ∀ (xs ys : List String),
      decide ((xs ++ ys).length ≠ xs.length) = decide (ys ≠ []) := by
    intro xs ys
    simp only [decide_eq_decide, List.length_append]
    constructor
    · intro h hnil
      simp [hnil] at h
    · intro h heq
      exact h (List.eq_nil_of_length_eq_zero (by omega))
  have hlenEx : ∀ (xs ys : List FileInfo),
      decide ((xs ++ ys).length ≠ xs.length) = decide (ys ≠ []) := by
    intro xs ys
    simp only [decide_eq_decide, List.length_append]
    constructor
    · intro h hnil
      simp [hnil] at h
    · intro h heq
      exact h (List.eq_nil_of_length_eq_zero (by omega))
  constructor
  · refine ⟨claimedFiles wild recurse t path, ?_⟩
    have hout :
        (if recurse then getFilesRecurse wild t (ensureTrailingSlash path) results
         else getFilesNoRecurse wild t path results) =
          results ++ claimedFiles wild recurse t path := by
      cases recurse with
      | false =>
          cases t with
          | file m => simp [getFilesNoRecurse, claimedFiles]
          | dir es => simp [getFilesNoRecurse, claimedFiles, getFilesNoRecurseEntries_eq]
      | true =>
          cases t with
          | file m => simp [getFilesRecurse, claimedFiles]
          | dir es => simp [getFilesRecurse, claimedFiles, getFilesRecurseEntries_eq]
    unfold GetFiles
    rw [hout]
    dsimp only
    rw [hlen]
  · refine ⟨(if recurse then
        match t with
        | .file _ => []
        | .dir es => collectedFilesRecurseEx wild es (ensureTrailingSlash path)
      else
        match t with
        | .file _ => []
        | .dir es => collectedFilesFlatEx wild es (ensureTrailingSlash path)), ?_⟩
    have hout :
        (if recurse then getFilesRecurseEx wild t (ensureTrailingSlash path) resultsEx
         else getFilesNoRecurseEx wild t path resultsEx) =
          resultsEx ++ (if recurse then
            match t with
            | .file _ => []
            | .dir es => collectedFilesRecurseEx wild es (ensureTrailingSlash path)
          else
            match t with
            | .file _ => []
            | .dir es => collectedFilesFlatEx wild es (ensureTrailingSlash path)) := by
      cases recurse with
      | false =>
          cases t with
          | file m => simp [getFilesNoRecurseEx]
          | dir es => simp [getFilesNoRecurseEx, getFilesNoRecurseExEntries_eq]
      | true =>
          cases t with
          | file m => simp [getFilesRecurseEx]
          | dir es => simp [getFilesRecurseEx, getFilesRecurseExEntries_eq]
    unfold GetFilesEx
    rw [hout]
    dsimp only
    rw [hlenEx]

/-- C9: on Linux and macOS, `FileCopy`, `CreateTempPath`,
`SetFileLastWriteTime` and `SetReadOnly` return false for every input and
perform no file-system action — they are unimplemented stubs, so every
caller on those platforms observes unconditional failure. -/
theorem claim_C9_posix_stubs_always_fail (fs : FSTree)
    (src dst p : List String) (allowOverwrite readOnly : Bool)
    (pfx : String) (fileTime : Nat) :
    FileCopy_posix fs src dst allowOverwrite = (false, fs) ∧
    CreateTempPath_posix fs pfx = (false, fs, none) ∧
    SetFileLastWriteTime_posix fs p fileTime = (false, fs) ∧
    SetReadOnly_posix fs p readOnly = (false, fs) :=
  ⟨rfl, rfl, rfl, rfl⟩

theorem workAroundGo_spec (openOk : Nat → Bool) :
    ∀ (n attempt : Nat), 1000 - attempt ≤ n → attempt ≤ 1000 →
      (∃ k, attempt ≤ k ∧ k ≤ 1000 ∧
        workAroundGo openOk attempt = .openedAfter k ∧ openOk k = true) ∨
      (workAroundGo openOk attempt = .timedOut ∧
        ∀ k, attempt ≤ k → k ≤ 1000 → openOk k = false) := by
  intro n
  induction n with
  | zero =>
      intro attempt hn hle
      have ha : attempt = 1000 := by omega
      subst ha
      rw [workAroundGo]
      cases hop : openOk 1000 with
      | true =>
          left
          exact ⟨1000, le_refl _, le_refl _, by simp [hop], hop⟩
      | false =>
          right
          constructor
          · simp [hop]
          · intro k hk1 hk2
            have : k = 1000 := by omega
            simpa [this] using hop
  | succ n ih =>
      intro attempt hn hle
      rw [workAroundGo]
      cases hop : openOk attempt with
      | true =>
          left
          exact ⟨attempt, le_refl _, hle, by simp [hop], hop⟩
      | false =>
          by_cases hstop : attempt + 1 > 1000
          · have ha : attempt = 1000 := by omega
            subst ha
            right
            constructor
            · simp [hop]
            · intro k hk1 hk2
              have : k = 1000 := by omega
              simpa [this] using hop
          · have hle' : attempt + 1 ≤ 1000 := by omega
            have hrec := ih (attempt + 1) (by omega) hle'
            cases hrec with
            | inl h =>
                obtain ⟨k, hk1, hk2, hk3, hk4⟩ := h
                left
                refine ⟨k, by omega, hk2, ?_, hk4⟩
                simp [hop, hstop, hk3]
            | inr h =>
                obtain ⟨h1, h2⟩ := h
                right
                constructor
                · simp [hop, hstop, h1]
                · intro k hk1 hk2
                  rcases Nat.eq_or_lt_of_le hk1 with heq | hlt
                  · simpa [← heq] using hop
                  · exact h2 k (by omega) hk2

/-- C8: the re-open retry loop of
`WorkAroundForWindowsFilePermissionProblem` is bounded — sleeping 1 ms
between attempts and giving up once the elapsed time exceeds one second —
so for every sequence of open outcomes it returns, either at the first
successful open (within the one-second budget of 1000 failed 1 ms sleeps)
or by timing out, making at most 1001 open attempts. -/
theorem claim_C8_workaround_loop_bounded (openOk : Nat → Bool) :
    waAttempts (workAround openOk) ≤ 1001 ∧
    ((∃ k, k ≤ 1000 ∧ workAround openOk = .openedAfter k ∧ openOk k = true) ∨
     (workAround openOk = .timedOut ∧ ∀ k, k ≤ 1000 → openOk k = false)) := by
  have h := workAroundGo_spec openOk 1000 0 (by omega) (by omega)
  unfold workAround
  cases h with
  | inl h =>
      obtain ⟨k, _, hk2, hk3, hk4⟩ := h
      refine ⟨?_, Or.inl ⟨k, hk2, hk3, hk4⟩⟩
      rw [hk3]
      simp [waAttempts]
      omega
  | inr h =>
      obtain ⟨h1, h2⟩ := h
      refine ⟨?_, Or.inr ⟨h1, fun k hk => h2 k (by omega) hk⟩⟩
      rw [h1]
      simp [waAttempts]

/-- C5 counterexample: the claim says a failed call is never re-attempted
internally by the layer, but on Windows `FileCopy` re-attempts the copy: on
an access-denied first copy with overwrite allowed and a read-only
destination, `CopyFile` is called twice within the one `FileCopy` call. -/
theorem claim_C5_counterexample :
    (FileCopy_windows
      { copyOk := fun _ => false
        lastError := 5
        dstAttrs := some 1
        setAttrsOk := true } true).2 = 2 ∧
    ¬ (FileCopy_windows
      { copyOk := fun _ => false
        lastError := 5
        dstAttrs := some 1
        setAttrsOk := true } true).2 ≤ 1 := by
  constructor
  · rfl
  · decide

/-- C5 (amended): the layer's internal re-attempts are bounded and occur
only in the two documented Windows workarounds: `FileCopy` makes at most
two `CopyFile` calls, a second call happening only when the first failed
with access denied while overwrite was allowed, and the file-permission
workaround makes at most 1001 open attempts; no retry is unbounded. -/
theorem claim_C5_retries_bounded (env : CopyEnv) (allowOverwrite : Bool)
    (openOk : Nat → Bool) :
    (FileCopy_windows env allowOverwrite).2 ≤ 2 ∧
    ((FileCopy_windows env allowOverwrite).2 = 2 →
      env.copyOk 0 = false ∧ env.lastError = ERROR_ACCESS_DENIED ∧
        allowOverwrite = true) ∧
    waAttempts (workAround openOk) ≤ 1001 := by
  refine ⟨?_, ?_, ?_⟩
  · unfold FileCopy_windows
    split
    · simp
    · split
      · rename_i hcond
        cases henv : env.dstAttrs with
        | none => simp [henv]
        | some attrs =>
            simp only [henv]
            split
            · simp
            · split <;> simp
      · simp
  · intro h2
    unfold FileCopy_windows at h2
    by_cases h0 : env.copyOk 0 = true
    · simp [h0] at h2
    · simp only [Bool.not_eq_true] at h0
      refine ⟨h0, ?_⟩
      simp only [h0, Bool.false_eq_true, if_false] at h2
      by_cases hcond : env.lastError = ERROR_ACCESS_DENIED ∧ allowOverwrite = true
      · exact hcond
      · simp [hcond] at h2
  · have h := workAroundGo_spec openOk 1000 0 (by omega) (by omega)
    unfold workAround
    cases h with
    | inl h =>
        obtain ⟨k, _, hk2, hk3, _⟩ := h
        rw [hk3]
        simp [waAttempts]
        omega
    | inr h =>
        rw [h.1]
        simp [waAttempts]

theorem mkdir_eexist_of_exists :
    ∀ (p : List String) (fs : FSTree), entryExists fs p → fs.mkdir p = .eexist := by
  intro p
  induction p with
  | nil => intro fs _; cases fs <;> rfl
  | cons n rest ih =>
      intro fs h
      cases fs with
      | file m => simp [entryExists, FSTree.lookup] at h
      | dir es =>
          rw [FSTree.mkdir]
      
          have hent : ∀ es', (lookupEntries es' n rest).isSome →
              mkdirEntries es' n rest = .eexist := by
            intro es'
            induction es' with
            | nil => intro h'; simp [lookupEntries] at h'
            | cons e es'' ihe =>
                obtain ⟨m', c⟩ := e
                intro h'
                rw [lookupEntries] at h'
                rw [mkdirEntries.eq_def]
                by_cases hm : m' = n
                · simp only [hm, if_true] at h' ⊢
                  cases rest with
                  | nil => rfl
                  | cons r rest' =>
                      dsimp only
                      rw [ih c (by simpa [entryExists] using h')]
                · simp only [hm, if_false] at h' ⊢
                  rw [ihe h']
          rw [hent es (by simpa [entryExists, FSTree.lookup] using h)]

theorem exists_of_mkdir_eexist :
    ∀ (p : List String) (fs : FSTree), fs.mkdir p = .eexist → entryExists fs p := by
  intro p
  induction p with
  | nil => intro fs _; simp [entryExists, FSTree.lookup]
  | cons n rest ih =>
      intro fs h
      cases fs with
      | file m => rw [FSTree.mkdir] at h; exact absurd h (by simp)
      | dir es =>
          rw [FSTree.mkdir] at h
          have hent : ∀ es', mkdirEntries es' n rest = .eexist →
              (lookupEntries es' n rest).isSome := by
            intro es'
            induction es' with
            | nil =>
                intro h'
                rw [mkdirEntries.eq_def] at h'
                cases rest <;> simp at h'
            | cons e es'' ihe =>
                obtain ⟨m', c⟩ := e
                intro h'
                rw [mkdirEntries.eq_def] at h'
                rw [lookupEntries]
                by_cases hm : m' = n
                · simp only [hm, if_true] at h' ⊢
                  cases rest with
                  | nil => simp [FSTree.lookup]
                  | cons r rest' =>
                      dsimp only at h'
                      cases hc : FSTree.mkdir c (r :: rest') with
                      | created c' => rw [hc] at h'; simp at h'
                      | eexist =>
                          have := ih c hc
                          simpa [entryExists] using this
                      | err => rw [hc] at h'; simp at h'
                · simp only [hm, if_false] at h' ⊢
                  cases hrec : mkdirEntries es'' n rest with
                  | created es3 => rw [hrec] at h'; simp at h'
                  | eexist => exact ihe hrec
                  | err => rw [hrec] at h'; simp at h'
          cases hrec : mkdirEntries es n rest with
          | created es' => rw [hrec] at h; simp at h
          | eexist =>
              have := hent es hrec
              simpa [entryExists, FSTree.lookup] using this
          | err => rw [hrec] at h; simp at h

theorem mkdir_created_lookup :
    ∀ (p : List String) (fs fs' : FSTree), fs.mkdir p = .created fs' →
      fs'.lookup p = some (.dir []) := by
  intro p
  induction p with
  | nil => intro fs fs' h; rw [FSTree.mkdir] at h; exact absurd h (by simp)
  | cons n rest ih =>
      intro fs fs' h
      cases fs with
      | file m => rw [FSTree.mkdir] at h; exact absurd h (by simp)
      | dir es =>
          rw [FSTree.mkdir] at h
          have hent : ∀ es0 es1, mkdirEntries es0 n rest = .created es1 →
              lookupEntries es1 n rest = some (.dir []) := by
            intro es0
            induction es0 with
            | nil =>
                intro es1 h'
                rw [mkdirEntries.eq_def] at h'
                cases rest with
                | nil =>
                    simp only [MkdirResultE.created.injEq] at h'
                    subst h'
                    simp [lookupEntries, FSTree.lookup]
                | cons r rest' => simp at h'
            | cons e es'' ihe =>
                obtain ⟨m', c⟩ := e
                intro es1 h'
                rw [mkdirEntries.eq_def] at h'
                by_cases hm : m' = n
                · simp only [hm, if_true] at h'
                  cases rest with
                  | nil => simp at h'
                  | cons r rest' =>
                      dsimp only at h'
                      cases hc : FSTree.mkdir c (r :: rest') with
                      | created c' =>
                          rw [hc] at h'
                          simp only [MkdirResultE.created.injEq] at h'
                          subst h'
                          rw [lookupEntries, if_pos rfl]
                          exact ih c c' hc
                      | eexist => rw [hc] at h'; simp at h'
                      | err => rw [hc] at h'; simp at h'
                · simp only [hm, if_false] at h'
                  cases hrec : mkdirEntries es'' n rest with
                  | created es3 =>
                      rw [hrec] at h'
                      simp only [MkdirResultE.created.injEq] at h'
                      subst h'
                      rw [lookupEntries, if_neg hm]
                      exact ihe es3 hrec
                  | eexist => rw [hrec] at h'; simp at h'
                  | err => rw [hrec] at h'; simp at h'
          cases hrec : mkdirEntries es n rest with
          | created es' =>
              rw [hrec] at h
              simp only [MkdirResult.created.injEq] at h
              subst h
              rw [FSTree.lookup]
              exact hent es es' hrec
          | eexist => rw [hrec] at h; simp at h
          | err => rw [hrec] at h; simp at h

theorem mkdir_created_preserves :
    ∀ (p : List String) (fs fs' : FSTree), fs.mkdir p = .created fs' →
      ∀ q, entryExists fs q → entryExists fs' q := by
  intro p
  induction p with
  | nil => intro fs fs' h; rw [FSTree.mkdir] at h; exact absurd h (by simp)
  | cons n rest ih =>
      intro fs fs' h
      cases fs with
      | file m => rw [FSTree.mkdir] at h; exact absurd h (by simp)
      | dir es =>
          rw [FSTree.mkdir] at h
          have hent : ∀ es0 es1, mkdirEntries es0 n rest = .created es1 →
              ∀ nq restq, (lookupEntries es0 nq restq).isSome →
                (lookupEntries es1 nq restq).isSome := by
            intro es0
            induction es0 with
            | nil =>
                intro es1 h' nq restq hq
                simp [lookupEntries] at hq
            | cons e es'' ihe =>
                obtain ⟨m', c⟩ := e
                intro es1 h' nq restq hq
                rw [mkdirEntries.eq_def] at h'
                rw [lookupEntries] at hq
                by_cases hm : m' = n
                · rw [hm] at hq
                  simp only [hm, if_true] at h'
                  cases rest with
                  | nil => simp at h'
                  | cons r rest' =>
                      dsimp only at h'
                      cases hc : FSTree.mkdir c (r :: rest') with
                      | created c' =>
                          rw [hc] at h'
                          simp only [MkdirResultE.created.injEq] at h'
                          subst h'
                          rw [lookupEntries]
                          by_cases hq' : n = nq
                          · simp only [hq', if_true] at hq ⊢
                            have := ih c c' hc restq
                            simpa [entryExists] using this (by simpa [entryExists] using hq)
                          · simpa [hq', if_false] using hq
                      | eexist => rw [hc] at h'; simp at h'
                      | err => rw [hc] at h'; simp at h'
                · simp only [hm, if_false] at h'
                  cases hrec : mkdirEntries es'' n rest with
                  | created es3 =>
                      rw [hrec] at h'
                      simp only [MkdirResultE.created.injEq] at h'
                      subst h'
                      rw [lookupEntries]
                      by_cases hq' : m' = nq
                      · simpa [hq'] using hq
                      · simp only [hq', if_false] at hq ⊢
                        exact ihe es3 hrec nq restq hq
                  | eexist => rw [hrec] at h'; simp at h'
                  | err => rw [hrec] at h'; simp at h'
          cases hrec : mkdirEntries es n rest with
          | created es' =>
              rw [hrec] at h
              simp only [MkdirResult.created.injEq] at h
              subst h
              intro q hq
              cases q with
              | nil => simp [entryExists, FSTree.lookup]
              | cons nq restq =>
                  simp only [entryExists, FSTree.lookup] at hq ⊢
                  exact hent es es' hrec nq restq hq
          | eexist => rw [hrec] at h; simp at h
          | err => rw [hrec] at h; simp at h

theorem lookup_append :
    ∀ (xs ys : List String) (fs : FSTree),
      fs.lookup (xs ++ ys) = (fs.lookup xs).bind (fun t => t.lookup ys) := by
  intro xs
  induction xs with
  | nil => intro ys fs; simp [FSTree.lookup]
  | cons n xs' ih =>
      intro ys fs
      cases fs with
      | file m => simp [FSTree.lookup]
      | dir es =>
          rw [List.cons_append, FSTree.lookup, FSTree.lookup]
          induction es with
          | nil => simp [lookupEntries]
          | cons e es'' ihe =>
              obtain ⟨m', c⟩ := e
              rw [lookupEntries, lookupEntries]
              by_cases hm : m' = n
              · simp only [hm, if_true]
                exact ih ys c
              · simp only [hm, if_false]
                exact ihe

theorem DirectoryCreate_of_exists (fs : FSTree) (p : List String)
    (hex : entryExists fs p) : DirectoryCreate fs p = (true, fs) := by
  unfold DirectoryCreate
  rw [mkdir_eexist_of_exists p fs hex]

theorem DirectoryCreate_true_exists (fs : FSTree) (p : List String)
    (h : (DirectoryCreate fs p).1 = true) :
    entryExists (DirectoryCreate fs p).2 p := by
  unfold DirectoryCreate at h ⊢
  cases hrec : fs.mkdir p with
  | created fs' =>
      dsimp only
      simp [entryExists, mkdir_created_lookup p fs fs' hrec]
  | eexist =>
      dsimp only
      exact exists_of_mkdir_eexist p fs hrec
  | err => rw [hrec] at h; simp at h

theorem entryExists_of_directoryExists (fs : FSTree) (p : List String)
    (hdir : DirectoryExists fs p = true) : entryExists fs p := by
  unfold DirectoryExists at hdir
  unfold entryExists
  cases hl : fs.lookup p with
  | none => rw [hl] at hdir; simp at hdir
  | some t => simp

/-- C7: `DirectoryCreate` is idempotent: it returns true with the file
system unchanged when the directory already exists, and after any
successful call a second call on the same path returns true and leaves the
file system unchanged. -/
theorem claim_C7_directoryCreate_idempotent (fs : FSTree) (p : List String)
    (h : (DirectoryCreate fs p).1 = true) :
    DirectoryCreate (DirectoryCreate fs p).2 p = (true, (DirectoryCreate fs p).2) ∧
    (DirectoryExists fs p = true → DirectoryCreate fs p = (true, fs)) := by
  constructor
  · exact DirectoryCreate_of_exists _ p (DirectoryCreate_true_exists fs p h)
  · intro hdir
    exact DirectoryCreate_of_exists fs p (entryExists_of_directoryExists fs p hdir)

/-- Witness for C7 at a concrete input: creating directory "x" in an empty
root succeeds, and the theorem's conclusions hold there. -/
theorem claim_C7_witness :
    DirectoryCreate (DirectoryCreate (.dir []) ["x"]).2 ["x"] =
      (true, (DirectoryCreate (.dir []) ["x"]).2) ∧
    (DirectoryExists (.dir []) ["x"] = true →
      DirectoryCreate (.dir []) ["x"] = (true, .dir [])) :=
  claim_C7_directoryCreate_idempotent (.dir []) ["x"] rfl

theorem DirectoryCreate_preserves (fs : FSTree) (p : List String) (q : List String)
    (hq : entryExists fs q) : entryExists (DirectoryCreate fs p).2 q := by
  unfold DirectoryCreate
  cases hrec : fs.mkdir p with
  | created fs' =>
      dsimp only
      exact mkdir_created_preserves p fs fs' hrec q hq
  | eexist => dsimp only; exact hq
  | err => dsimp only; exact hq

theorem ensurePathLoop_preserves :
    ∀ (rest : List String) (fs : FSTree) (done q : List String),
      entryExists fs q → entryExists (ensurePathLoop fs done rest).2 q := by
  intro rest
  induction rest with
  | nil => intro fs done q hq; exact hq
  | cons c rest' ih =>
      intro fs done q hq
      rw [ensurePathLoop]
      by_cases hdir : DirectoryExists fs (done ++ [c]) = true
      · simp only [hdir, if_true]
        exact ih fs (done ++ [c]) q hq
      · simp only [hdir, if_false]
        cases hdc : DirectoryCreate fs (done ++ [c]) with
        | mk ok fs' =>
            cases ok with
            | true =>
                dsimp only
                have : entryExists fs' q := by
                  have := DirectoryCreate_preserves fs (done ++ [c]) q hq
                  rw [hdc] at this
                  exact this
                exact ih fs' (done ++ [c]) q this
            | false =>
                dsimp only
                have := DirectoryCreate_preserves fs (done ++ [c]) q hq
                rw [hdc] at this
                exact this

theorem ensurePathLoop_true_prefixes :
    ∀ (rest : List String) (fs : FSTree) (done : List String),
      (ensurePathLoop fs done rest).1 = true →
      ∀ i, 0 < i → i ≤ rest.length →
        entryExists (ensurePathLoop fs done rest).2 (done ++ rest.take i) := by
  intro rest
  induction rest with
  | nil => intro fs done _ i hi hile; simp at hile; omega
  | cons c rest' ih =>
      intro fs done htrue i hi hile
      have hsplit : done ++ (c :: rest').take i = (done ++ [c]) ++ rest'.take (i - 1) := by
        cases i with
        | zero => omega
        | succ j => simp [List.take_succ_cons]
      rw [ensurePathLoop] at htrue ⊢
      by_cases hdir : DirectoryExists fs (done ++ [c]) = true
      · rw [if_pos hdir] at htrue ⊢
        rcases Nat.eq_or_lt_of_le hi with h1 | h1
        · rw [hsplit, ← h1]
          simp only [Nat.sub_self, List.take_zero, List.append_nil]
          exact ensurePathLoop_preserves rest' fs (done ++ [c]) (done ++ [c])
            (entryExists_of_directoryExists fs (done ++ [c]) hdir)
        · rw [hsplit]
          exact ih fs (done ++ [c]) htrue (i - 1) (by omega) (by simp at hile; omega)
      · rw [if_neg hdir] at htrue ⊢
        cases hdc : DirectoryCreate fs (done ++ [c]) with
        | mk ok fs' =>
            cases ok with
            | true =>
                rw [hdc] at htrue
                dsimp only at htrue ⊢
                have hcur : entryExists fs' (done ++ [c]) := by
                  have h2 := DirectoryCreate_true_exists fs (done ++ [c]) (by rw [hdc])
                  rw [hdc] at h2
                  exact h2
                rcases Nat.eq_or_lt_of_le hi with h1 | h1
                · rw [hsplit, ← h1]
                  simp only [Nat.sub_self, List.take_zero, List.append_nil]
                  exact ensurePathLoop_preserves rest' fs' (done ++ [c]) (done ++ [c]) hcur
                · rw [hsplit]
                  exact ih fs' (done ++ [c]) htrue (i - 1) (by omega) (by simp at hile; omega)
            | false =>
                rw [hdc] at htrue
                dsimp only at htrue
                exact absurd htrue (by simp)

/-- C2 counterexample: with a plain file already sitting at "a",
`EnsurePathExists ["a"]` returns true — `DirectoryCreate` treats the
EEXIST the file provokes as success — yet afterwards "a" still does not
exist as a directory, refuting "if it returns true then every directory
level of the path exists". -/
theorem claim_C2_counterexample :
    EnsurePathExists (.dir [("a", .file ⟨0, 0, 0⟩)]) ["a"] =
      (true, .dir [("a", .file ⟨0, 0, 0⟩)]) ∧
    DirectoryExists (.dir [("a", .file ⟨0, 0, 0⟩)]) ["a"] = false :=
  ⟨rfl, rfl⟩

/-- C2 (amended): when the full directory path already exists,
`EnsurePathExists` returns true without touching the file system; the
levels are walked shallowest-first and a failed creation aborts with false
at once; and when it returns true, every level of the path exists as SOME
file-system entry afterwards — but not necessarily as a directory, since a
level occupied by a plain file makes the underlying creation call fail with
"already exists", which `DirectoryCreate` reports as success. -/
theorem claim_C2_ensurePathExists_amended (fs : FSTree) (p : List String) :
    (DirectoryExists fs p = true → EnsurePathExists fs p = (true, fs)) ∧
    ((EnsurePathExists fs p).1 = true →
      ∀ i, 0 < i → i ≤ p.length →
        entryExists (EnsurePathExists fs p).2 (p.take i)) := by
  constructor
  · intro hdir
    unfold EnsurePathExists
    rw [if_pos hdir]
  · intro htrue i hi hile
    unfold EnsurePathExists at htrue ⊢
    by_cases hdir : DirectoryExists fs p = true
    · rw [if_pos hdir] at htrue ⊢
      dsimp only
      have hfull : entryExists fs p := entryExists_of_directoryExists fs p hdir
      unfold entryExists at hfull ⊢
      rw [show p = p.take i ++ p.drop i by simp] at hfull
      rw [lookup_append] at hfull
      cases hl : fs.lookup (p.take i) with
      | none => rw [hl] at hfull; simp at hfull
      | some t => simp
    · rw [if_neg hdir] at htrue ⊢
      have := ensurePathLoop_true_prefixes p fs [] htrue i hi hile
      simpa using this

/-- Witness for C2 (amended) at a concrete input: for a root containing
directory "a" and path "a", both implications fire: the call returns true
leaving the file system unchanged, and level 1 of the path exists
afterwards. -/
theorem claim_C2_witness :
    EnsurePathExists (.dir [("a", .dir [])]) ["a"] =
      (true, .dir [("a", .dir [])]) ∧
    entryExists (EnsurePathExists (.dir [("a", .dir [])]) ["a"]).2
      (List.take 1 ["a"]) = true :=
  ⟨(claim_C2_ensurePathExists_amended (.dir [("a", .dir [])]) ["a"]).1 rfl,
   (claim_C2_ensurePathExists_amended (.dir [("a", .dir [])]) ["a"]).2 rfl
     1 (by decide) (by decide)⟩

theorem stMode_file_land (x : Nat) (hx : x < 2 ^ 12) :
    (S_IFREG ||| x) &&& S_IFDIR = 0 := by
  apply Nat.zero_of_testBit_eq_false
  intro i
  rw [Nat.testBit_land, Nat.testBit_lor]
  by_cases h14 : i = 14
  · subst h14
    have h1 : Nat.testBit S_IFREG 14 = false := by
      have : S_IFREG = 2 ^ 15 := by norm_num [S_IFREG]
      rw [this]
      exact Nat.testBit_two_pow_of_ne (by norm_num)
    have h2 : Nat.testBit x 14 = false :=
      Nat.testBit_eq_false_of_lt (lt_of_lt_of_le hx (by norm_num))
    simp [h1, h2]
  · have h3 : Nat.testBit S_IFDIR i = false := by
      have : S_IFDIR = 2 ^ 14 := by norm_num [S_IFDIR]
      rw [this]
      exact Nat.testBit_two_pow_of_ne (fun h => h14 h.symm)
    simp [h3]

theorem lowHigh_recombine (v : Nat) (hv : v < 2 ^ 64) :
    (v % 2 ^ 32) ||| ((v / 2 ^ 32 % 2 ^ 32) <<< 32) = v := by
  apply Nat.eq_of_testBit_eq
  intro i
  rw [Nat.testBit_lor, Nat.testBit_mod_two_pow, Nat.testBit_shiftLeft,
    Nat.testBit_mod_two_pow, ← Nat.shiftRight_eq_div_pow, Nat.testBit_shiftRight]
  by_cases h32 : i < 32
  · simp [h32, Nat.not_le_of_lt h32]
  · push_neg at h32
    by_cases h64 : i < 64
    · have heq : 32 + (i - 32) = i := by omega
      simp [Nat.not_lt.mpr h32, h32, heq, show i - 32 < 32 by omega]
    · push_neg at h64
      have hvi : v.testBit i = false :=
        Nat.testBit_eq_false_of_lt
          (lt_of_lt_of_le hv (Nat.pow_le_pow_right (by norm_num) h64))
      simp [Nat.not_lt.mpr h32, h32, hvi, show ¬ i - 32 < 32 by omega]

/-- C3 counterexample: a directory "d" exists on disk, yet the POSIX
branch of `FileExists` returns false for it (the code returns true only
when the path "exists and is NOT a folder"), refuting "for every path that
exists on disk (whether it is a file or a directory) FileExists returns
true". -/
theorem claim_C3_counterexample :
    entryExists (.dir [("d", .dir [])]) ["d"] = true ∧
    FileExists_posix (.dir [("d", .dir [])]) ["d"] = false := by
  constructor
  · rfl
  · decide

/-- C3 (amended): the two platform branches genuinely differ.  On Windows
`FileExists` returns true exactly when anything exists at the path,
directory or not; on Linux/macOS it returns true exactly when the path
exists AND is not a directory. -/
theorem claim_C3_fileExists_amended (fs : FSTree) (p : List String) :
    FileExists_windows fs p = entryExists fs p ∧
    (FileExists_posix fs p = true ↔ ∃ m, fs.lookup p = some (.file m)) := by
  refine ⟨rfl, ?_⟩
  unfold FileExists_posix
  cases hl : fs.lookup p with
  | none => simp
  | some t =>
      cases t with
      | file m =>
          have hland : (FSTree.file m).stMode &&& S_IFDIR = 0 := by
            rw [FSTree.stMode]
            exact stMode_file_land (m.attr % 0o10000) (Nat.mod_lt _ (by norm_num))
          simp only [hland]
          have : (0 : Nat) ≠ S_IFDIR := by norm_num [S_IFDIR]
          simp [this]
      | dir es =>
          have hland : (FSTree.dir es).stMode &&& S_IFDIR = S_IFDIR := by
            rw [FSTree.stMode]
            decide
          simp [hland]

/-- C4 counterexample: on Linux/macOS `GetFileInfo` is an unimplemented
stub (debug `ASSERT( false )`, then `return false`), so it reports failure
even for an existing file, refuting "for every existing file GetFileInfo
returns true and fills info". -/
theorem claim_C4_counterexample :
    (FSTree.dir [("f", .file ⟨5, 7, 0⟩)]).lookup ["f"] =
      some (.file ⟨5, 7, 0⟩) ∧
    GetFileInfo_posix (.dir [("f", .file ⟨5, 7, 0⟩)]) ["f"] = none :=
  ⟨rfl, rfl⟩

/-- C4 (amended): on Windows, for every existing file `GetFileInfo`
returns true and fills the info record with exactly that file's size and
last-write time (recombining the 32-bit halves the OS reports), agreeing
with `GetFileLastWriteTime`, and it returns false when the path does not
exist; on Linux/macOS `GetFileInfo` is unimplemented and returns false for
every input. -/
theorem claim_C4_getFileInfo_amended (fs : FSTree) (p : List String)
    (fileName : String) (m : FileMeta)
    (hfile : fs.lookup p = some (.file m))
    (hsize : m.size < 2 ^ 64) (htime : m.mtime < 2 ^ 64) :
    GetFileInfo_windows fs p fileName =
      some { name := fileName, attributes := m.attr,
             lastWriteTime := m.mtime, size := m.size } ∧
    GetFileLastWriteTime_windows fs p = m.mtime ∧
    (∀ q, fs.lookup q = none → GetFileInfo_windows fs q fileName = none) ∧
    GetFileInfo_posix fs p = none := by
  have hstat : winStat fs p = some
      { dwFileAttributes := m.attr
        ftLastWriteTimeLow := m.mtime % 2 ^ 32
        ftLastWriteTimeHigh := m.mtime / 2 ^ 32 % 2 ^ 32
        nFileSizeLow := m.size % 2 ^ 32
        nFileSizeHigh := m.size / 2 ^ 32 % 2 ^ 32 } := by
    unfold winStat
    rw [hfile]
  refine ⟨?_, ?_, ?_, rfl⟩
  · unfold GetFileInfo_windows
    rw [hstat]
    dsimp only
    rw [lowHigh_recombine m.mtime htime, lowHigh_recombine m.size hsize]
  · unfold GetFileLastWriteTime_windows
    rw [hstat]
    dsimp only
    rw [lowHigh_recombine m.mtime htime]
  · intro q hq
    unfold GetFileInfo_windows winStat
    rw [hq]

/-- Witness for C4 (amended) at a concrete input: a root holding one file
"f" of size 5, last-write time 7 and attribute word 3. -/
theorem claim_C4_witness :
    GetFileInfo_windows (.dir [("f", .file ⟨5, 7, 3⟩)]) ["f"] "f" =
      some { name := "f", attributes := 3, lastWriteTime := 7, size := 5 } ∧
    GetFileLastWriteTime_windows (.dir [("f", .file ⟨5, 7, 3⟩)]) ["f"] = 7 ∧
    (∀ q, (FSTree.dir [("f", .file ⟨5, 7, 3⟩)]).lookup q = none →
      GetFileInfo_windows (.dir [("f", .file ⟨5, 7, 3⟩)]) q "f" = none) ∧
    GetFileInfo_posix (.dir [("f", .file ⟨5, 7, 3⟩)]) ["f"] = none :=
  claim_C4_getFileInfo_amended (.dir [("f", .file ⟨5, 7, 3⟩)]) ["f"] "f"
    ⟨5, 7, 3⟩ rfl (by norm_num) (by norm_num)

theorem lookup_setAt :
    ∀ (p : List String) (fs t fs' : FSTree), FSTree.setAt fs p t = some fs' →
      fs'.lookup p = some t := by
  intro p
  induction p with
  | nil => intro fs t fs' h; rw [FSTree.setAt] at h; simp at h
  | cons n rest ih =>
      intro fs t fs' h
      cases fs with
      | file m => rw [FSTree.setAt] at h; simp at h
      | dir es =>
          rw [FSTree.setAt] at h
          have hent : ∀ es0 es1, setAtEntries es0 n rest t = some es1 →
              lookupEntries es1 n rest = some t := by
            intro es0
            induction es0 with
            | nil =>
                intro es1 hse
                rw [setAtEntries.eq_def] at hse
                cases rest with
                | nil =>
                    simp only [Option.some.injEq] at hse
                    subst hse
                    rw [lookupEntries, if_pos rfl, FSTree.lookup]
                | cons r rest' => simp at hse
            | cons e es'' ihe =>
                obtain ⟨m', c⟩ := e
                intro es1 hse
                rw [setAtEntries.eq_def] at hse
                by_cases hm : m' = n
                · simp only [hm, if_true] at hse
                  cases rest with
                  | nil =>
                      cases c with
                      | dir es3 => simp at hse
                      | file m3 =>
                          dsimp only at hse
                          simp only [Option.some.injEq] at hse
                          subst hse
                          rw [lookupEntries, if_pos rfl, FSTree.lookup]
                  | cons r rest' =>
                      dsimp only at hse
                      cases hc : FSTree.setAt c (r :: rest') t with
                      | none => rw [hc] at hse; simp at hse
                      | some c' =>
                          rw [hc] at hse
                          simp only [Option.map_some', Option.some.injEq] at hse
                          subst hse
                          rw [lookupEntries, if_pos rfl]
                          exact ih c t c' hc
                · simp only [hm, if_false] at hse
                  cases hrec : setAtEntries es'' n rest t with
                  | none => rw [hrec] at hse; simp at hse
                  | some es3 =>
                      rw [hrec] at hse
                      simp only [Option.map_some', Option.some.injEq] at hse
                      subst hse
                      rw [lookupEntries, if_neg hm]
                      exact ihe es3 hrec
          cases hse : setAtEntries es n rest t with
          | none => rw [hse] at h; simp at h
          | some es1 =>
              rw [hse] at h
              simp only [Option.map_some', Option.some.injEq] at h
              subst h
              rw [FSTree.lookup]
              exact hent es es1 hse

/-- C6: `FileMove` publishes in one atomic step: it is a single `rename`
call, returning true exactly when the rename succeeded; on success the file
system changes in that one step to a state where the destination holds the
source's file (replacing any file previously at the destination), and on
failure the file system is untouched, so no intermediate state ever
exists for a reader to observe. -/
theorem claim_C6_fileMove_atomic (fs : FSTree) (src dst : List String) :
    (renameFile fs src dst = none → FileMove fs src dst = (false, fs)) ∧
    (∀ fs', renameFile fs src dst = some fs' →
      FileMove fs src dst = (true, fs') ∧
      ∃ m, fs.lookup src = some (.file m) ∧ fs'.lookup dst = some (.file m)) := by
  constructor
  · intro h
    unfold FileMove
    rw [h]
  · intro fs' h
    constructor
    · unfold FileMove
      rw [h]
    · unfold renameFile at h
      cases hl : fs.lookup src with
      | none => rw [hl] at h; simp at h
      | some t =>
          cases t with
          | dir es => rw [hl] at h; simp at h
          | file m =>
              refine ⟨m, rfl, ?_⟩
              rw [hl] at h
              dsimp only at h
              cases hr : fs.removeAt src with
              | none => rw [hr] at h; simp at h
              | some fs'' =>
                  rw [hr] at h
                  dsimp only at h
                  exact lookup_setAt dst fs'' (.file m) fs' h

/-- Witness for C6 at a concrete input: moving file "s" onto existing file
"d" succeeds and the destination then holds the source's content. -/
theorem claim_C6_witness :
    FileMove (.dir [("s", .file ⟨1, 2, 3⟩), ("d", .file ⟨4, 5, 6⟩)]) ["s"] ["d"] =
      (true, .dir [("d", .file ⟨1, 2, 3⟩)]) ∧
    ∃ m, (FSTree.dir [("s", .file ⟨1, 2, 3⟩), ("d", .file ⟨4, 5, 6⟩)]).lookup ["s"] =
        some (.file m) ∧
      (FSTree.dir [("d", .file ⟨1, 2, 3⟩)]).lookup ["d"] = some (.file m) :=
  (claim_C6_fileMove_atomic
    (.dir [("s", .file ⟨1, 2, 3⟩), ("d", .file ⟨4, 5, 6⟩)]) ["s"] ["d"]).2
    (.dir [("d", .file ⟨1, 2, 3⟩)]) rfl

/-- Witness for C3 (amended) at a concrete input: a root holding one file
"f". -/
theorem claim_C3_witness :
    FileExists_windows (.dir [("f", .file ⟨0, 0, 0⟩)]) ["f"] =
      entryExists (.dir [("f", .file ⟨0, 0, 0⟩)]) ["f"] ∧
    (FileExists_posix (.dir [("f", .file ⟨0, 0, 0⟩)]) ["f"] = true ↔
      ∃ m, (FSTree.dir [("f", .file ⟨0, 0, 0⟩)]).lookup ["f"] =
        some (.file m)) :=
  claim_C3_fileExists_amended (.dir [("f", .file ⟨0, 0, 0⟩)]) ["f"]

/-- Witness for C5 (amended) at concrete inputs: an environment whose
first copy fails with access denied on a read-only destination, and an
open oracle that always succeeds. -/
theorem claim_C5_witness :
    (FileCopy_windows
      { copyOk := fun _ => true
        lastError := 5
        dstAttrs := some 1
        setAttrsOk := true } true).2 ≤ 2 ∧
    ((FileCopy_windows
      { copyOk := fun _ => true
        lastError := 5
        dstAttrs := some 1
        setAttrsOk := true } true).2 = 2 →
      (fun _ : Nat => true) 0 = false ∧ (5 : Nat) = ERROR_ACCESS_DENIED ∧
        true = true) ∧
    waAttempts (workAround (fun _ => true)) ≤ 1001 :=
  claim_C5_retries_bounded
    { copyOk := fun _ => true
      lastError := 5
      dstAttrs := some 1
      setAttrsOk := true } true (fun _ => true)

/-- Witness for C8 at a concrete input: an open oracle that never
succeeds, for which the loop times out after its bounded number of
attempts. -/
theorem claim_C8_witness :
    waAttempts (workAround (fun _ => false)) ≤ 1001 ∧
    ((∃ k, k ≤ 1000 ∧ workAround (fun _ => false) = .openedAfter k ∧
        (fun _ : Nat => false) k = true) ∨
     (workAround (fun _ => false) = .timedOut ∧
        ∀ k, k ≤ 1000 → (fun _ : Nat => false) k = false)) :=
  claim_C8_workaround_loop_bounded (fun _ => false)
